import Mathlib

/-!
Verification of the worcoder-js mnemonic codec.

Shallow embedding of the library's JavaScript sources in Lean 4:

* `rs1024.js` — the RS1024 checksum engine (`_polymod`, `create_checksum`,
  `verify_checksum`). JavaScript `BigInt` arithmetic is embedded as `Nat`
  (both are unbounded non-negative integers here; every intermediate value
  is non-negative).
* `encoding.js` — the byte / base-1024 digit conversion
  (`bytesToBase1024`, `base1024ToBytes`) and the mnemonic codec
  (`strToWords`, `wordsToStr`), plus `cleanupMnemonic`, `heuristicWord`
  from the extended revision of the file.

Strings entering `strToWords` are represented by their UTF-8 byte
sequences (`List Nat`, each element < 256): the platform primitives
`TextEncoder.encode` / `TextDecoder.decode` used by `stringToBytes` /
`bytesToString` are mutually inverse UTF-8 codecs supplied by the host,
so the codec is studied at the byte level they mediate.  The wordlist
(`wordlist.js`, an external 1024-entry asset) is a parameter `wl`.
Thrown JavaScript errors are embedded as `Except` error values.
-/

namespace Worcoder

/-- The generator table of `_polymod` in `rs1024.js` (SLIP-0039 constants). -/
def GEN : List Nat :=
  [0xE0E040, 0x1C1C080, 0x3838100, 0x7070200, 0xE0E0009,
   0x1C0C2412, 0x38086C24, 0x3090FC48, 0x21B1F890, 0x03F3F120]

/-- One iteration of the `for (const v of values)` loop of `_polymod`:
`top = chk >> 20; chk = ((chk & 0xFFFFF) << 10) ^ v;` followed by the inner
loop `for i in 0..9: if (top >> i) & 1: chk ^= GEN[i]`. -/
def polymodStep (chk v : Nat) : Nat :=
  (List.range 10).foldl
    (fun c i => if ((chk >>> 20) >>> i) &&& 1 = 1 then c ^^^ GEN.getD i 0 else c)
    (((chk &&& 0xFFFFF) <<< 10) ^^^ v)

/-- `_polymod` from `rs1024.js`: fold `polymodStep` over the values,
starting from `chk = 1`. -/
def _polymod (values : List Nat) : Nat :=
  values.foldl polymodStep 1

/-- `CHECKSUM_LENGTH_WORDS` from `rs1024.js`. -/
def CHECKSUM_LENGTH_WORDS : Nat := 3

/-- `create_checksum(data, custom)` from `rs1024.js`: append three zero
placeholders, xor the polymod with 1, and slice the result into three
10-bit digits, most significant first (loop `i = 2, 1, 0`). -/
def create_checksum (data custom : List Nat) : List Nat :=
  let values := custom ++ data ++ [0, 0, 0]
  let poly := _polymod values ^^^ 1
  [(poly >>> 20) &&& 0x3FF, (poly >>> 10) &&& 0x3FF, poly &&& 0x3FF]

/-- `verify_checksum(data, custom)` from `rs1024.js`:
`_polymod(custom ++ data) == 1`. -/
def verify_checksum (data custom : List Nat) : Bool :=
  _polymod (custom ++ data) == 1

/-- The `while (bigVal > 0n)` digit-extraction loop of `bytesToBase1024`:
least-significant base-1024 digit first. -/
def natToBase1024Rev (v : Nat) : List Nat :=
  if h : v = 0 then [] else v % 1024 :: natToBase1024Rev (v / 1024)
termination_by v
decreasing_by
  exact Nat.div_lt_self (Nat.pos_of_ne_zero h) (by norm_num)

/-- The `while (bigVal > 0n)` byte-extraction loop of `base1024ToBytes`
(`bigVal & 0xFF` is `% 256`, `bigVal >> 8` is `/ 256`): least-significant
byte first. -/
def natToBytesRev (v : Nat) : List Nat :=
  if h : v = 0 then [] else v % 256 :: natToBytesRev (v / 256)
termination_by v
decreasing_by
  exact Nat.div_lt_self (Nat.pos_of_ne_zero h) (by norm_num)

/-- The accumulation loop of `bytesToBase1024`:
`bigVal = (bigVal << 8) + b` over the bytes, big-endian. -/
def bytesToNat (bs : List Nat) : Nat :=
  bs.foldl (fun a b => a * 256 + b) 0

/-- The accumulation loop of `base1024ToBytes`:
`bigVal = bigVal * 1024 + digit` over the digits. -/
def digitsToNat (ds : List Nat) : Nat :=
  ds.foldl (fun a d => a * 1024 + d) 0

/-- `bytesToBase1024` from `encoding.js`: bytes to one big integer, then
extract base-1024 digits; an empty digit list (value 0) becomes `[0]`;
finally reverse to most-significant-first order. -/
def bytesToBase1024 (byteArray : List Nat) : List Nat :=
  (if (natToBase1024Rev (bytesToNat byteArray)).isEmpty then [0]
   else natToBase1024Rev (bytesToNat byteArray)).reverse

/-- `base1024ToBytes` from `encoding.js`: digits to one big integer, then
extract bytes and reverse to big-endian order. -/
def base1024ToBytes (arr : List Nat) : List Nat :=
  (natToBytesRev (digitsToNat arr)).reverse

/-- `strToWords` from `encoding.js`, at the byte level (the argument is the
UTF-8 encoding of the input string): data digits, three checksum digits
with empty customization, then map every digit to its wordlist entry
(`wordlist[index]`, total via a default for the out-of-range case that
never occurs). -/
def strToWords (wl : List String) (bytes : List Nat) : List String :=
  (bytesToBase1024 bytes ++ create_checksum (bytesToBase1024 bytes) []).map
    (fun index => wl.getD index "")

/-- The three exceptions `wordsToStr` can throw, as abstract error values:
"Not enough words to contain data + checksum", "Invalid mnemonic word"
(carrying the word), and "ChecksumError: invalid RS1024 checksum!". -/
inductive DecodeError where
  | insufficientWords : DecodeError
  | invalidWord : String → DecodeError
  | checksumError : DecodeError
deriving DecidableEq

/-- `wordlist.indexOf(w)` from `encoding.js`: index of the first occurrence,
`none` embedding JavaScript's `-1`. -/
def wlIndexOf (wl : List String) (w : String) : Option Nat :=
  match wl with
  | [] => none
  | x :: rest => if x = w then some 0 else (wlIndexOf rest w).map (· + 1)

/-- The `words.map(w => { const idx = wordlist.indexOf(w); if (idx === -1) throw ...; return idx; })`
pattern of `wordsToStr`: map words to indices, failing on the first word
absent from the wordlist. -/
def wordsToIndices (wl : List String) (ws : List String) : Except DecodeError (List Nat) :=
  match ws with
  | [] => .ok []
  | w :: rest =>
    match wlIndexOf wl w with
    | none => .error (.invalidWord w)
    | some idx => (wordsToIndices wl rest).map (fun idxs => idx :: idxs)

/-- `wordsToStr` from `encoding.js`, at the byte level (the result is the
UTF-8 byte sequence handed to `TextDecoder`): reject fewer than
`CHECKSUM_LENGTH_WORDS + 1` words, split off the last three words, map both
parts to indices (data part first, as in the source), verify the checksum
with empty customization, and reconstruct the bytes from the data part. -/
def wordsToStr (wl : List String) (words : List String) : Except DecodeError (List Nat) :=
  if words.length < CHECKSUM_LENGTH_WORDS + 1 then
    .error .insufficientWords
  else
    match wordsToIndices wl (words.take (words.length - CHECKSUM_LENGTH_WORDS)) with
    | .error e => .error e
    | .ok dataArr =>
      match wordsToIndices wl (words.drop (words.length - CHECKSUM_LENGTH_WORDS)) with
      | .error e => .error e
      | .ok csumArr =>
        if verify_checksum (dataArr ++ csumArr) [] then
          .ok (base1024ToBytes dataArr)
        else
          .error .checksumError

/-! ## Bitwise helper lemmas -/

theorem wc_xor_left_comm (a b c : Nat) : a ^^^ (b ^^^ c) = b ^^^ (a ^^^ c) := by
  rw [← Nat.xor_assoc, Nat.xor_comm a b, Nat.xor_assoc]

theorem wc_xor_shiftRight (a b k : Nat) : (a ^^^ b) >>> k = a >>> k ^^^ b >>> k := by
  apply Nat.eq_of_testBit_eq
  intro i
  simp [Nat.testBit_shiftRight, Nat.testBit_xor]

theorem wc_xor_shiftLeft (a b k : Nat) : (a ^^^ b) <<< k = a <<< k ^^^ b <<< k := by
  apply Nat.eq_of_testBit_eq
  intro i
  simp only [Nat.testBit_shiftLeft, Nat.testBit_xor]
  cases h : decide (k ≤ i) <;> simp

/-- Pulling the start value out of the conditional-xor folds used by
`polymodStep` and `genFeedback`. -/
theorem wc_foldl_ite_xor (P : Nat → Prop) [DecidablePred P] (g : Nat → Nat) :
    ∀ (l : List Nat) (a : Nat),
      l.foldl (fun c i => if P i then c ^^^ g i else c) a
        = a ^^^ l.foldl (fun c i => if P i then c ^^^ g i else c) 0
  | [], a => by simp
  | i :: l, a => by
    simp only [List.foldl_cons]
    rw [wc_foldl_ite_xor P g l (if P i then a ^^^ g i else a),
      wc_foldl_ite_xor P g l (if P i then 0 ^^^ g i else 0)]
    by_cases h : P i <;> simp [h, Nat.xor_assoc]

/-- The inner generator-xor loop of `_polymod` as a function of the top
bits, started from 0. -/
def genFeedback (t : Nat) : Nat :=
  (List.range 10).foldl
    (fun c i => if (t >>> i) &&& 1 = 1 then c ^^^ GEN.getD i 0 else c) 0

/-- The linear part of one `_polymod` step. -/
def stepLin (x : Nat) : Nat :=
  ((x &&& 0xFFFFF) <<< 10) ^^^ genFeedback (x >>> 20)

theorem polymodStep_eq (chk v : Nat) : polymodStep chk v = stepLin chk ^^^ v := by
  unfold polymodStep stepLin genFeedback
  rw [wc_foldl_ite_xor]
  rw [Nat.xor_assoc, Nat.xor_assoc, Nat.xor_comm v _]

theorem wc_bit_xor (t u i : Nat) :
    ((t ^^^ u) >>> i) &&& 1 = ((t >>> i) &&& 1) ^^^ ((u >>> i) &&& 1) := by
  rw [wc_xor_shiftRight, Nat.and_xor_distrib_right]

theorem wc_ite_bit_xor (t u i G : Nat) :
    (if ((t ^^^ u) >>> i) &&& 1 = 1 then G else 0)
      = (if (t >>> i) &&& 1 = 1 then G else 0) ^^^ (if (u >>> i) &&& 1 = 1 then G else 0) := by
  rw [wc_bit_xor]
  have ht : (t >>> i) &&& 1 = 0 ∨ (t >>> i) &&& 1 = 1 := by
    have := Nat.and_le_right (n := t >>> i) (m := 1)
    omega
  have hu : (u >>> i) &&& 1 = 0 ∨ (u >>> i) &&& 1 = 1 := by
    have := Nat.and_le_right (n := u >>> i) (m := 1)
    omega
  rcases ht with h | h <;> rcases hu with h' | h' <;> simp [h, h']

theorem wc_foldl_bits_linear (t u : Nat) :
    ∀ l : List Nat,
      l.foldl (fun c i => if ((t ^^^ u) >>> i) &&& 1 = 1 then c ^^^ GEN.getD i 0 else c) 0
        = l.foldl (fun c i => if (t >>> i) &&& 1 = 1 then c ^^^ GEN.getD i 0 else c) 0
          ^^^ l.foldl (fun c i => if (u >>> i) &&& 1 = 1 then c ^^^ GEN.getD i 0 else c) 0
  | [] => by simp
  | i :: l => by
    simp only [List.foldl_cons]
    rw [wc_foldl_ite_xor _ _ l, wc_foldl_ite_xor _ _ l (if (t >>> i) &&& 1 = 1 then 0 ^^^ GEN.getD i 0 else 0),
      wc_foldl_ite_xor _ _ l (if (u >>> i) &&& 1 = 1 then 0 ^^^ GEN.getD i 0 else 0)]
    rw [wc_foldl_bits_linear t u l]
    simp only [Nat.zero_xor]
    rw [wc_ite_bit_xor t u i (GEN.getD i 0)]
    simp only [Nat.xor_assoc, Nat.xor_comm, wc_xor_left_comm]

theorem genFeedback_linear (t u : Nat) :
    genFeedback (t ^^^ u) = genFeedback t ^^^ genFeedback u :=
  wc_foldl_bits_linear t u (List.range 10)

theorem stepLin_linear (x y : Nat) : stepLin (x ^^^ y) = stepLin x ^^^ stepLin y := by
  unfold stepLin
  rw [Nat.and_xor_distrib_right, wc_xor_shiftLeft, wc_xor_shiftRight, genFeedback_linear]
  simp [Nat.xor_assoc, Nat.xor_comm, wc_xor_left_comm]

theorem polymodStep_xor (chk δ v : Nat) :
    polymodStep (chk ^^^ δ) v = polymodStep chk v ^^^ stepLin δ := by
  rw [polymodStep_eq, polymodStep_eq, stepLin_linear]
  simp [Nat.xor_assoc, Nat.xor_comm, wc_xor_left_comm]

theorem polymodStep_val_xor (chk v d : Nat) :
    polymodStep chk (v ^^^ d) = polymodStep chk v ^^^ d := by
  rw [polymodStep_eq, polymodStep_eq, Nat.xor_assoc]

theorem foldl_polymodStep_xor :
    ∀ (l : List Nat) (c δ : Nat),
      l.foldl polymodStep (c ^^^ δ) = l.foldl polymodStep c ^^^ stepLin^[l.length] δ
  | [], c, δ => by simp
  | v :: l, c, δ => by
    simp only [List.foldl_cons, List.length_cons]
    rw [polymodStep_xor, foldl_polymodStep_xor l, Function.iterate_succ_apply]

/-! ## Bounds -/

theorem GEN_getD_lt (i : Nat) : GEN.getD i 0 < 2 ^ 30 := by
  rcases Nat.lt_or_ge i 10 with h | h
  · interval_cases i <;> decide
  · rw [List.getD_eq_default]
    · norm_num
    · simp [GEN]
      omega

theorem genFeedback_lt_aux (t : Nat) :
    ∀ (l : List Nat) (a : Nat), a < 2 ^ 30 →
      l.foldl (fun c i => if (t >>> i) &&& 1 = 1 then c ^^^ GEN.getD i 0 else c) a < 2 ^ 30
  | [], a, ha => ha
  | i :: l, a, ha => by
    simp only [List.foldl_cons]
    apply genFeedback_lt_aux t l
    by_cases h : (t >>> i) &&& 1 = 1
    · rw [if_pos h]
      exact Nat.xor_lt_two_pow ha (GEN_getD_lt i)
    · rw [if_neg h]
      exact ha

theorem genFeedback_lt (t : Nat) : genFeedback t < 2 ^ 30 :=
  genFeedback_lt_aux t (List.range 10) 0 (by norm_num)

theorem stepLin_lt (x : Nat) : stepLin x < 2 ^ 30 := by
  unfold stepLin
  apply Nat.xor_lt_two_pow ?_ (genFeedback_lt _)
  rw [Nat.shiftLeft_eq]
  have h : x &&& 0xFFFFF < 2 ^ 20 :=
    lt_of_le_of_lt Nat.and_le_right (by norm_num)
  calc (x &&& 0xFFFFF) * 2 ^ 10 < 2 ^ 20 * 2 ^ 10 :=
        Nat.mul_lt_mul_of_lt_of_le h (le_refl _) (by norm_num)
    _ = 2 ^ 30 := by norm_num

theorem stepLin_small (d : Nat) (hd : d < 2 ^ 20) : stepLin d = d <<< 10 := by
  unfold stepLin
  have h1 : d >>> 20 = 0 := by
    rw [Nat.shiftRight_eq_div_pow]
    exact Nat.div_eq_of_lt hd
  have h2 : genFeedback 0 = 0 := by decide
  rw [h1, h2, Nat.xor_zero]
  congr 1
  have h3 : (0xFFFFF : Nat) = 2 ^ 20 - 1 := by norm_num
  rw [h3, Nat.and_pow_two_sub_one_eq_mod]
  exact Nat.mod_eq_of_lt hd

/-- Reassembling a 30-bit value from its three 10-bit slices. -/
theorem wc_recompose (p : Nat) (hp : p < 2 ^ 30) :
    (((p >>> 20) &&& 0x3FF) <<< 20) ^^^ ((((p >>> 10) &&& 0x3FF) <<< 10) ^^^ (p &&& 0x3FF)) = p := by
  apply Nat.eq_of_testBit_eq
  intro i
  have h3ff : (0x3FF : Nat) = 2 ^ 10 - 1 := by norm_num
  simp only [Nat.testBit_xor, Nat.testBit_shiftLeft, Nat.testBit_and,
    Nat.testBit_shiftRight, h3ff, Nat.testBit_two_pow_sub_one]
  by_cases h1 : i < 10
  · simp [show ¬ 20 ≤ i by omega, show ¬ 10 ≤ i by omega, h1]
  · by_cases h2 : i < 20
    · have hi : 10 + (i - 10) = i := by omega
      simp [show ¬ 20 ≤ i by omega, show 10 ≤ i by omega, show i - 10 < 10 by omega, h1, hi]
    · by_cases h3 : i < 30
      · have hi : 20 + (i - 20) = i := by omega
        simp [show 20 ≤ i by omega, show 10 ≤ i by omega, show i - 20 < 10 by omega,
          show ¬ i - 10 < 10 by omega, h1, hi]
      · have hpi : p < 2 ^ i :=
          lt_of_lt_of_le hp (Nat.pow_le_pow_right (by norm_num) (by omega))
        simp [show ¬ i - 20 < 10 by omega, show ¬ i - 10 < 10 by omega, h1,
          Nat.testBit_lt_two_pow hpi]

/-! ## The created checksum verifies -/

theorem polymod_append (xs ys : List Nat) :
    _polymod (xs ++ ys) = ys.foldl polymodStep (_polymod xs) := by
  unfold _polymod
  rw [List.foldl_append]

theorem polymodStep_zero (s : Nat) : polymodStep s 0 = stepLin s := by
  rw [polymodStep_eq, Nat.xor_zero]

theorem and_3FF_lt (x : Nat) : x &&& 0x3FF < 2 ^ 10 :=
  lt_of_le_of_lt Nat.and_le_right (by norm_num)

theorem shiftLeft10_lt {x : Nat} (hx : x < 2 ^ 10) : x <<< 10 < 2 ^ 20 := by
  rw [Nat.shiftLeft_eq]
  calc x * 2 ^ 10 < 2 ^ 10 * 2 ^ 10 := Nat.mul_lt_mul_of_lt_of_le hx (le_refl _) (by norm_num)
    _ = 2 ^ 20 := by norm_num

theorem shiftLeft10_shiftLeft10 (x : Nat) : (x <<< 10) <<< 10 = x <<< 20 := by
  rw [Nat.shiftLeft_eq, Nat.shiftLeft_eq, Nat.shiftLeft_eq, mul_assoc, ← pow_add]

/-- Core algebraic fact behind claim C2: appending the created checksum to the
data makes the polymod collapse to 1, for every data and customization. -/
theorem verify_create (data custom : List Nat) :
    verify_checksum (data ++ create_checksum data custom) custom = true := by
  set P := _polymod (custom ++ data ++ [0, 0, 0]) with hPdef
  have hP : P = stepLin (stepLin (stepLin (_polymod (custom ++ data)))) := by
    rw [hPdef, polymod_append]
    simp only [List.foldl_cons, List.foldl_nil, polymodStep_zero]
  have hP30 : P < 2 ^ 30 := by
    rw [hP]
    exact stepLin_lt _
  have hpoly30 : P ^^^ 1 < 2 ^ 30 := Nat.xor_lt_two_pow hP30 (by norm_num)
  have hcc : create_checksum data custom
      = [((P ^^^ 1) >>> 20) &&& 0x3FF, ((P ^^^ 1) >>> 10) &&& 0x3FF, (P ^^^ 1) &&& 0x3FF] := rfl
  set d2v := ((P ^^^ 1) >>> 20) &&& 0x3FF with hd2v
  set d1v := ((P ^^^ 1) >>> 10) &&& 0x3FF with hd1v
  set d0v := (P ^^^ 1) &&& 0x3FF with hd0v
  have hd2_20 : d2v < 2 ^ 20 := lt_trans (and_3FF_lt _) (by norm_num)
  have hX20 : d1v ^^^ d2v <<< 10 < 2 ^ 20 :=
    Nat.xor_lt_two_pow (lt_trans (and_3FF_lt _) (by norm_num)) (shiftLeft10_lt (and_3FF_lt _))
  have e2 : polymodStep (stepLin (_polymod (custom ++ data)) ^^^ d2v) d1v
      = (stepLin (stepLin (_polymod (custom ++ data))) ^^^ d1v) ^^^ d2v <<< 10 := by
    rw [polymodStep_xor, polymodStep_eq, stepLin_small _ hd2_20]
  have e3 : polymodStep ((stepLin (stepLin (_polymod (custom ++ data))) ^^^ d1v) ^^^ d2v <<< 10) d0v
      = (stepLin (stepLin (stepLin (_polymod (custom ++ data)))) ^^^ d0v)
          ^^^ (d1v ^^^ d2v <<< 10) <<< 10 := by
    rw [Nat.xor_assoc, polymodStep_xor, polymodStep_eq, stepLin_small _ hX20]
  simp only [verify_checksum, hcc, beq_iff_eq]
  rw [← List.append_assoc, polymod_append]
  simp only [List.foldl_cons, List.foldl_nil]
  rw [show polymodStep (_polymod (custom ++ data)) d2v
      = stepLin (_polymod (custom ++ data)) ^^^ d2v from polymodStep_eq _ _]
  rw [e2, e3, wc_xor_shiftLeft, shiftLeft10_shiftLeft10, ← hP]
  have hshuffle : (P ^^^ d0v) ^^^ (d1v <<< 10 ^^^ d2v <<< 20)
      = P ^^^ (d2v <<< 20 ^^^ (d1v <<< 10 ^^^ d0v)) := by
    simp only [Nat.xor_assoc, Nat.xor_comm, wc_xor_left_comm]
  rw [hshuffle, hd2v, hd1v, hd0v, wc_recompose (P ^^^ 1) hpoly30, Nat.xor_cancel_left]

/-! ## Single-symbol substitutions are always detected -/

theorem lowbits_shiftLeft10 (r : Nat) : (r <<< 10) &&& 0x3FF = 0 := by
  rw [Nat.shiftLeft_eq, show (0x3FF : Nat) = 2 ^ 10 - 1 by norm_num,
    Nat.and_pow_two_sub_one_eq_mod, Nat.mul_mod_left]

set_option maxRecDepth 10000 in
/-- The low 10 bits of the feedback determine the injected top bits: the
10×10 GF(2) matrix formed by the low 10 bits of the generator constants is
invertible. Checked exhaustively over all 1024 top values. -/
theorem genFeedback_low_inj : ∀ t < 1024, genFeedback t &&& 0x3FF = 0 → t = 0 := by
  decide

theorem stepLin_eq_zero {δ : Nat} (h30 : δ < 2 ^ 30) (h : stepLin δ = 0) : δ = 0 := by
  have ht : δ >>> 20 < 1024 := by
    rw [Nat.shiftRight_eq_div_pow]
    have h1 : δ < 1024 * 2 ^ 20 := by
      calc δ < 2 ^ 30 := h30
        _ = 1024 * 2 ^ 20 := by norm_num
    exact (Nat.div_lt_iff_lt_mul (by norm_num)).mpr h1
  have hlow : stepLin δ &&& 0x3FF = genFeedback (δ >>> 20) &&& 0x3FF := by
    unfold stepLin
    rw [Nat.and_xor_distrib_right, lowbits_shiftLeft10, Nat.zero_xor]
  have h0 : genFeedback (δ >>> 20) &&& 0x3FF = 0 := by
    rw [← hlow, h, Nat.zero_and]
  have ht0 : δ >>> 20 = 0 := genFeedback_low_inj _ ht h0
  have hδform : stepLin δ = (δ &&& 0xFFFFF) <<< 10 := by
    unfold stepLin
    rw [ht0, show genFeedback 0 = 0 by decide, Nat.xor_zero]
  rw [hδform, Nat.shiftLeft_eq] at h
  have hr : δ &&& 0xFFFFF = 0 := by
    rcases Nat.mul_eq_zero.mp h with h' | h'
    · exact h'
    · norm_num at h'
  have hmod : δ % 2 ^ 20 = 0 := by
    rw [show (0xFFFFF : Nat) = 2 ^ 20 - 1 by norm_num, Nat.and_pow_two_sub_one_eq_mod] at hr
    exact hr
  have hdiv : δ / 2 ^ 20 = 0 := by
    rw [Nat.shiftRight_eq_div_pow] at ht0
    exact ht0
  omega

theorem stepLin_iter_ne_zero (k : Nat) :
    ∀ {δ : Nat}, δ ≠ 0 → δ < 2 ^ 30 → stepLin^[k] δ ≠ 0 := by
  induction k with
  | zero => intro δ hδ _; simpa using hδ
  | succ k ih =>
    intro δ hδ h30
    rw [Function.iterate_succ_apply]
    exact ih (fun h0 => hδ (stepLin_eq_zero h30 h0)) (stepLin_lt δ)

theorem foldl_polymodStep_set :
    ∀ (l : List Nat) (c : Nat) (j : Nat) (hj : j < l.length) (v : Nat),
      (l.set j v).foldl polymodStep c
        = l.foldl polymodStep c ^^^ stepLin^[l.length - j - 1] (v ^^^ l.get ⟨j, hj⟩)
  | [], _, j, hj, _ => absurd hj (by simp)
  | x :: rest, c, 0, _, v => by
    simp only [List.set_cons_zero, List.foldl_cons, List.length_cons, List.get]
    have hv : v = x ^^^ (x ^^^ v) := by rw [Nat.xor_cancel_left]
    rw [show polymodStep c v = polymodStep c x ^^^ (x ^^^ v) by
        conv_lhs => rw [hv]
        rw [polymodStep_val_xor]]
    rw [foldl_polymodStep_xor]
    have : Nat.succ rest.length - 0 - 1 = rest.length := by omega
    rw [this, Nat.xor_comm v x]
  | x :: rest, c, j + 1, hj, v => by
    simp only [List.set_cons_succ, List.foldl_cons, List.length_cons, List.get]
    rw [foldl_polymodStep_set rest (polymodStep c x) j (by simpa using hj) v]
    have hlen : rest.length + 1 - (j + 1) - 1 = rest.length - j - 1 := by omega
    rw [hlen]

/-- Core fact behind claim C3: replacing a single digit of a sequence whose
polymod is 1 by a different digit always changes the polymod away from 1. -/
theorem verify_set_false (S : List Nat) (hS : ∀ d ∈ S, d < 1024)
    (hv : verify_checksum S [] = true) (j : Nat) (hj : j < S.length) (v : Nat)
    (hv1024 : v < 1024) (hne : v ≠ S.get ⟨j, hj⟩) :
    verify_checksum (S.set j v) [] = false := by
  unfold verify_checksum _polymod at hv ⊢
  simp only [List.nil_append, beq_iff_eq] at hv
  have hfold := foldl_polymodStep_set S 1 j hj v
  simp only [List.nil_append]
  rw [hfold, hv]
  have hδ : v ^^^ S.get ⟨j, hj⟩ ≠ 0 := fun h => hne (Nat.xor_eq_zero.mp h)
  have h30 : v ^^^ S.get ⟨j, hj⟩ < 2 ^ 30 := by
    apply Nat.xor_lt_two_pow
    · exact lt_trans hv1024 (by norm_num)
    · exact lt_trans (hS _ (S.get_mem j hj)) (by norm_num)
  have hne0 := stepLin_iter_ne_zero (S.length - j - 1) hδ h30
  have hne1 : (1 : Nat) ^^^ stepLin^[S.length - j - 1] (v ^^^ S.get ⟨j, hj⟩) ≠ 1 := by
    intro h
    apply hne0
    have h2 := congrArg (fun z => (1 : Nat) ^^^ z) h
    simpa [Nat.xor_cancel_left] using h2
  simpa using hne1

/-! ## Byte / digit conversion lemmas -/

theorem natToBase1024Rev_lt (v : Nat) : ∀ d ∈ natToBase1024Rev v, d < 1024 := by
  induction v using Nat.strong_induction_on with
  | _ v ih =>
    intro d hd
    rw [natToBase1024Rev] at hd
    by_cases h : v = 0
    · rw [dif_pos h] at hd
      simp at hd
    · rw [dif_neg h] at hd
      rcases List.mem_cons.mp hd with h1 | h1
      · subst h1
        exact Nat.mod_lt _ (by norm_num)
      · exact ih (v / 1024) (Nat.div_lt_self (Nat.pos_of_ne_zero h) (by norm_num)) d h1

theorem natToBase1024Rev_eq_nil_iff (v : Nat) : natToBase1024Rev v = [] ↔ v = 0 := by
  rw [natToBase1024Rev]
  by_cases h : v = 0 <;> simp [h]

theorem bytesToBase1024_mem_lt (bs : List Nat) : ∀ d ∈ bytesToBase1024 bs, d < 1024 := by
  intro d hd
  unfold bytesToBase1024 at hd
  simp only [List.mem_reverse] at hd
  by_cases h : (natToBase1024Rev (bytesToNat bs)).isEmpty
  · rw [if_pos h] at hd
    simp at hd
    omega
  · rw [if_neg h] at hd
    exact natToBase1024Rev_lt _ d hd

theorem create_checksum_mem_lt (data custom : List Nat) :
    ∀ d ∈ create_checksum data custom, d < 1024 := by
  intro d hd
  have hc : create_checksum data custom
      = [(_polymod (custom ++ data ++ [0, 0, 0]) ^^^ 1) >>> 20 &&& 0x3FF,
         (_polymod (custom ++ data ++ [0, 0, 0]) ^^^ 1) >>> 10 &&& 0x3FF,
         (_polymod (custom ++ data ++ [0, 0, 0]) ^^^ 1) &&& 0x3FF] := rfl
  rw [hc] at hd
  have h1024 : (2 : Nat) ^ 10 = 1024 := by norm_num
  rcases List.mem_cons.mp hd with h | h
  · rw [h, ← h1024]
    exact and_3FF_lt _
  rcases List.mem_cons.mp h with h | h
  · rw [h, ← h1024]
    exact and_3FF_lt _
  rcases List.mem_cons.mp h with h | h
  · rw [h, ← h1024]
    exact and_3FF_lt _
  · simp at h

theorem create_checksum_length (data custom : List Nat) :
    (create_checksum data custom).length = 3 := rfl

theorem digitsToNat_natToBase1024Rev (v : Nat) :
    digitsToNat (natToBase1024Rev v).reverse = v := by
  induction v using Nat.strong_induction_on with
  | _ v ih =>
    rw [natToBase1024Rev]
    by_cases h : v = 0
    · rw [dif_pos h]
      simp [digitsToNat, h]
    · rw [dif_neg h]
      unfold digitsToNat
      rw [List.reverse_cons, List.foldl_append]
      have hrec := ih (v / 1024) (Nat.div_lt_self (Nat.pos_of_ne_zero h) (by norm_num))
      unfold digitsToNat at hrec
      rw [hrec]
      simp only [List.foldl_cons, List.foldl_nil]
      omega

theorem digitsToNat_bytesToBase1024 (bs : List Nat) :
    digitsToNat (bytesToBase1024 bs) = bytesToNat bs := by
  unfold bytesToBase1024
  by_cases h : (natToBase1024Rev (bytesToNat bs)).isEmpty
  · rw [if_pos h]
    have h0 : bytesToNat bs = 0 := by
      rw [← natToBase1024Rev_eq_nil_iff]
      exact List.isEmpty_iff.mp h
    rw [h0]
    simp [digitsToNat]
  · rw [if_neg h]
    exact digitsToNat_natToBase1024Rev _

theorem bytesToBase1024_ne_nil (bs : List Nat) : bytesToBase1024 bs ≠ [] := by
  unfold bytesToBase1024
  by_cases h : (natToBase1024Rev (bytesToNat bs)).isEmpty
  · rw [if_pos h]
    simp
  · rw [if_neg h]
    simp only [ne_eq, List.reverse_eq_nil_iff]
    exact fun hc => h (by simp [hc])

theorem natToBytesRev_mul_add :
    ∀ (rest : List Nat) (a : Nat), 0 < a → (∀ x ∈ rest, x < 256) →
      natToBytesRev (rest.foldl (fun acc b => acc * 256 + b) a)
        = rest.reverse ++ natToBytesRev a
  | [], a, _, _ => by simp
  | y :: t, a, ha, hb => by
    simp only [List.foldl_cons]
    have hy : y < 256 := hb y (by simp)
    have ha2 : 0 < a * 256 + y := by positivity
    rw [natToBytesRev_mul_add t (a * 256 + y) ha2 (fun x hx => hb x (by simp [hx]))]
    have hstep : natToBytesRev (a * 256 + y) = y :: natToBytesRev a := by
      rw [natToBytesRev, dif_neg (by omega)]
      have hm : (a * 256 + y) % 256 = y := by omega
      have hd : (a * 256 + y) / 256 = a := by omega
      rw [hm, hd]
    rw [hstep]
    simp [List.reverse_cons, List.append_assoc]

theorem natToBytesRev_bytesToNat (bs : List Nat) (hb : ∀ x ∈ bs, x < 256) :
    (natToBytesRev (bytesToNat bs)).reverse = bs.dropWhile (· == 0) := by
  induction bs with
  | nil =>
    simp [bytesToNat, natToBytesRev]
  | cons x rest ih =>
    by_cases hx : x = 0
    · subst hx
      have h1 : bytesToNat (0 :: rest) = bytesToNat rest := by
        unfold bytesToNat
        simp
      rw [h1, ih (fun b hbb => hb b (by simp [hbb]))]
      rw [List.dropWhile_cons_of_pos (by simp)]
    · have hxlt : x < 256 := hb x (by simp)
      have h1 : bytesToNat (x :: rest) = rest.foldl (fun acc b => acc * 256 + b) x := by
        unfold bytesToNat
        simp
      rw [h1, natToBytesRev_mul_add rest x (Nat.pos_of_ne_zero hx)
        (fun b hbb => hb b (by simp [hbb]))]
      have h2 : natToBytesRev x = [x] := by
        rw [natToBytesRev, dif_neg hx, Nat.mod_eq_of_lt hxlt, Nat.div_eq_of_lt hxlt,
          natToBytesRev]
        simp
      rw [h2, List.dropWhile_cons_of_neg (by simp [hx])]
      simp

/-- Core fact behind claim C6: the byte / base-1024 round trip strips
exactly the leading zero bytes. -/
theorem round_trip_bytes (bs : List Nat) (hb : ∀ x ∈ bs, x < 256) :
    base1024ToBytes (bytesToBase1024 bs) = bs.dropWhile (· == 0) := by
  unfold base1024ToBytes
  rw [digitsToNat_bytesToBase1024]
  exact natToBytesRev_bytesToNat bs hb

theorem dropWhile_eq_self_of_head (bs : List Nat) (h : bs.head? ≠ some 0) :
    bs.dropWhile (· == 0) = bs := by
  cases bs with
  | nil => rfl
  | cons x rest =>
    have hx : x ≠ 0 := fun hx => h (by simp [hx])
    rw [List.dropWhile_cons_of_neg (by simp [hx])]

/-! ## Wordlist lookup lemmas -/

theorem wlIndexOf_eq_none_iff (wl : List String) (w : String) :
    wlIndexOf wl w = none ↔ w ∉ wl := by
  induction wl with
  | nil => simp [wlIndexOf]
  | cons x rest ih =>
    by_cases h : x = w
    · subst h
      simp [wlIndexOf]
    · simp only [wlIndexOf, if_neg h, List.mem_cons]
      rw [Option.map_eq_none']
      rw [ih]
      constructor
      · intro h1 h2
        rcases h2 with h2 | h2
        · exact h h2.symm
        · exact h1 h2
      · intro h1 h2
        exact h1 (Or.inr h2)

theorem wlIndexOf_mem {wl : List String} {w : String} (hmem : w ∈ wl) :
    ∃ i, wlIndexOf wl w = some i := by
  cases h : wlIndexOf wl w with
  | none => exact absurd hmem ((wlIndexOf_eq_none_iff wl w).mp h)
  | some i => exact ⟨i, rfl⟩

theorem wc_getD_mem (l : List String) (j : Nat) (hj : j < l.length) : l.getD j "" ∈ l := by
  rw [List.getD_eq_getElem l "" hj]
  exact List.getElem_mem hj

theorem wlIndexOf_getD (wl : List String) (hnd : wl.Nodup) :
    ∀ i, i < wl.length → wlIndexOf wl (wl.getD i "") = some i := by
  induction wl with
  | nil =>
    intro i hi
    simp at hi
  | cons x rest ih =>
    intro i hi
    rcases List.nodup_cons.mp hnd with ⟨hx, hrest⟩
    cases i with
    | zero => simp [wlIndexOf]
    | succ j =>
      have hj : j < rest.length := by simpa using hi
      have hget : (x :: rest).getD (j + 1) "" = rest.getD j "" := by
        simp [List.getD_cons_succ]
      rw [hget]
      simp only [wlIndexOf]
      have hne : ¬ x = rest.getD j "" := by
        intro he
        exact hx (he ▸ wc_getD_mem rest j hj)
      rw [if_neg hne, ih hrest j hj]
      rfl

/-! ## wordsToIndices lemmas -/

theorem wordsToIndices_map_getD (wl : List String) (hnd : wl.Nodup) :
    ∀ l : List Nat, (∀ i ∈ l, i < wl.length) →
      wordsToIndices wl (l.map (fun i => wl.getD i "")) = .ok l
  | [], _ => rfl
  | i :: rest, h => by
    simp only [List.map_cons, wordsToIndices]
    rw [wlIndexOf_getD wl hnd i (h i (by simp))]
    rw [wordsToIndices_map_getD wl hnd rest (fun j hj => h j (by simp [hj]))]
    rfl

theorem wordsToIndices_append (wl : List String) :
    ∀ a b : List String,
      wordsToIndices wl (a ++ b)
        = match wordsToIndices wl a with
          | .error e => .error e
          | .ok xs => (wordsToIndices wl b).map (fun ys => xs ++ ys)
  | [], b => by
    cases h : wordsToIndices wl b <;> simp [wordsToIndices, h, Except.map]
  | w :: a, b => by
    simp only [List.cons_append, wordsToIndices, List.append_eq]
    cases hw : wlIndexOf wl w with
    | none => rfl
    | some i =>
      rw [wordsToIndices_append wl a b]
      cases ha : wordsToIndices wl a with
      | error e => rfl
      | ok xs =>
        cases hb : wordsToIndices wl b <;> simp [Except.map]

theorem wordsToIndices_error_inv (wl : List String) :
    ∀ (l : List String) (e : DecodeError), wordsToIndices wl l = .error e →
      ∃ w, e = .invalidWord w ∧ w ∈ l ∧ w ∉ wl
  | [], e, h => by simp [wordsToIndices] at h
  | w :: rest, e, h => by
    simp only [wordsToIndices] at h
    cases hw : wlIndexOf wl w with
    | none =>
      rw [hw] at h
      refine ⟨w, ?_, by simp, (wlIndexOf_eq_none_iff wl w).mp hw⟩
      cases h
      rfl
    | some i =>
      rw [hw] at h
      cases hrest : wordsToIndices wl rest with
      | error e2 =>
        rw [hrest] at h
        simp only [Except.map] at h
        obtain ⟨w2, he, hmem, habs⟩ := wordsToIndices_error_inv wl rest e2 hrest
        refine ⟨w2, ?_, by simp [hmem], habs⟩
        injection h with h3
        rw [← h3, he]
      | ok idxs =>
        rw [hrest] at h
        simp [Except.map] at h

theorem wordsToIndices_first_absent (wl : List String) :
    ∀ l : List String, (∃ w, w ∈ l ∧ w ∉ wl) →
      ∃ w, w ∈ l ∧ w ∉ wl ∧ wordsToIndices wl l = .error (.invalidWord w)
  | [], h => by
    obtain ⟨w, hmem, _⟩ := h
    simp at hmem
  | w :: rest, h => by
    cases hw : wlIndexOf wl w with
    | none =>
      exact ⟨w, by simp, (wlIndexOf_eq_none_iff wl w).mp hw, by
        simp only [wordsToIndices, hw]⟩
    | some i =>
      have hwmem : w ∈ wl := by
        by_contra habs
        rw [(wlIndexOf_eq_none_iff wl w).mpr habs] at hw
        cases hw
      obtain ⟨w2, hmem2, habs2⟩ := h
      have hmem2' : w2 ∈ rest := by
        rcases List.mem_cons.mp hmem2 with rfl | hm
        · exact absurd hwmem habs2
        · exact hm
      obtain ⟨w3, hm3, habs3, herr3⟩ := wordsToIndices_first_absent wl rest ⟨w2, hmem2', habs2⟩
      refine ⟨w3, by simp [hm3], habs3, ?_⟩
      simp only [wordsToIndices, hw, herr3]
      rfl

theorem wordsToIndices_ok_mem (wl : List String) :
    ∀ (l : List String) (idxs : List Nat), wordsToIndices wl l = .ok idxs →
      ∀ w ∈ l, w ∈ wl
  | [], _, _, w, hmem => by simp at hmem
  | x :: rest, idxs, h, w, hmem => by
    simp only [wordsToIndices] at h
    cases hw : wlIndexOf wl x with
    | none =>
      rw [hw] at h
      cases h
    | some i =>
      rw [hw] at h
      cases hrest : wordsToIndices wl rest with
      | error e =>
        rw [hrest] at h
        cases h
      | ok tl =>
        rcases List.mem_cons.mp hmem with rfl | hm
        · by_contra habs
          rw [(wlIndexOf_eq_none_iff wl w).mpr habs] at hw
          cases hw
        · exact wordsToIndices_ok_mem wl rest tl hrest w hm

theorem wordsToIndices_ok_of_all (wl : List String) :
    ∀ l : List String, (∀ w ∈ l, w ∈ wl) →
      ∃ idxs, wordsToIndices wl l = .ok idxs
  | [], _ => ⟨[], rfl⟩
  | w :: rest, h => by
    obtain ⟨i, hi⟩ := wlIndexOf_mem (h w (by simp))
    obtain ⟨tl, htl⟩ := wordsToIndices_ok_of_all wl rest (fun x hx => h x (by simp [hx]))
    exact ⟨i :: tl, by simp only [wordsToIndices, hi, htl]; rfl⟩

/-! ## Take/drop of the mnemonic word list -/

theorem wc_take_append3 (a b : List String) (hb : b.length = 3) :
    (a ++ b).take ((a ++ b).length - 3) = a := by
  have h : (a ++ b).length - 3 = a.length := by simp [hb]
  rw [h]
  exact List.take_left a b

theorem wc_drop_append3 (a b : List String) (hb : b.length = 3) :
    (a ++ b).drop ((a ++ b).length - 3) = b := by
  have h : (a ++ b).length - 3 = a.length := by simp [hb]
  rw [h]
  exact List.drop_left a b

/-- Core fact behind claim C1: decoding the encoding of a byte sequence with
no leading zero byte recovers it exactly, for every 1024-entry
duplicate-free wordlist. -/
theorem wordsToStr_strToWords (wl : List String) (hlen : wl.length = 1024) (hnd : wl.Nodup)
    (bs : List Nat) (hb : ∀ b ∈ bs, b < 256) (hz : bs.head? ≠ some 0) :
    wordsToStr wl (strToWords wl bs) = .ok bs := by
  have hDlt : ∀ i ∈ bytesToBase1024 bs, i < wl.length := by
    rw [hlen]
    exact bytesToBase1024_mem_lt bs
  have hClt : ∀ i ∈ create_checksum (bytesToBase1024 bs) [], i < wl.length := by
    rw [hlen]
    exact create_checksum_mem_lt (bytesToBase1024 bs) []
  have hDlen1 : 1 ≤ (bytesToBase1024 bs).length :=
    List.length_pos.mpr (bytesToBase1024_ne_nil bs)
  have hClen : ((create_checksum (bytesToBase1024 bs) []).map
      (fun i => wl.getD i "")).length = 3 := by
    simp [create_checksum_length]
  have hwords : strToWords wl bs
      = (bytesToBase1024 bs).map (fun i => wl.getD i "")
        ++ (create_checksum (bytesToBase1024 bs) []).map (fun i => wl.getD i "") := by
    unfold strToWords
    rw [List.map_append]
  rw [hwords]
  unfold wordsToStr
  rw [if_neg (by
    simp only [List.length_append, List.length_map, create_checksum_length,
      CHECKSUM_LENGTH_WORDS]
    omega)]
  simp only [CHECKSUM_LENGTH_WORDS]
  rw [wc_take_append3 _ _ hClen, wc_drop_append3 _ _ hClen]
  rw [wordsToIndices_map_getD wl hnd (bytesToBase1024 bs) hDlt]
  rw [wordsToIndices_map_getD wl hnd (create_checksum (bytesToBase1024 bs) []) hClt]
  simp only []
  rw [if_pos (verify_create (bytesToBase1024 bs) [])]
  rw [round_trip_bytes bs hb, dropWhile_eq_self_of_head bs hz]

/-! ## Error behaviour of wordsToStr -/

theorem wordsToStr_insufficient_inv (wl : List String) (ws : List String)
    (h : wordsToStr wl ws = .error .insufficientWords) :
    ws.length < CHECKSUM_LENGTH_WORDS + 1 := by
  by_contra hlen
  unfold wordsToStr at h
  rw [if_neg hlen] at h
  cases h1 : wordsToIndices wl (ws.take (ws.length - CHECKSUM_LENGTH_WORDS)) with
  | error e1 =>
    rw [h1] at h
    obtain ⟨w, he, -, -⟩ := wordsToIndices_error_inv wl _ e1 h1
    have h' : (Except.error e1 : Except DecodeError (List Nat))
        = .error .insufficientWords := h
    injection h' with h2
    rw [he] at h2
    cases h2
  | ok dataArr =>
    rw [h1] at h
    cases h2 : wordsToIndices wl (ws.drop (ws.length - CHECKSUM_LENGTH_WORDS)) with
    | error e2 =>
      rw [h2] at h
      obtain ⟨w, he, -, -⟩ := wordsToIndices_error_inv wl _ e2 h2
      have h' : (Except.error e2 : Except DecodeError (List Nat))
          = .error .insufficientWords := h
      injection h' with h3
      rw [he] at h3
      cases h3
    | ok csumArr =>
      rw [h2] at h
      by_cases hv : verify_checksum (dataArr ++ csumArr) [] = true
      · simp [hv] at h
      · simp [hv] at h

theorem wordsToStr_invalid (wl : List String) (ws : List String)
    (hlen : 4 ≤ ws.length) (habs : ∃ w, w ∈ ws ∧ w ∉ wl) :
    ∃ w, w ∈ ws ∧ w ∉ wl ∧ wordsToStr wl ws = .error (.invalidWord w) := by
  have hnlt : ¬ ws.length < CHECKSUM_LENGTH_WORDS + 1 := by
    simp only [CHECKSUM_LENGTH_WORDS]
    omega
  have hsplit : ws.take (ws.length - CHECKSUM_LENGTH_WORDS)
      ++ ws.drop (ws.length - CHECKSUM_LENGTH_WORDS) = ws :=
    List.take_append_drop _ ws
  by_cases h1 : ∃ w, w ∈ ws.take (ws.length - CHECKSUM_LENGTH_WORDS) ∧ w ∉ wl
  · obtain ⟨w, hm, ha, herr⟩ := wordsToIndices_first_absent wl _ h1
    refine ⟨w, ?_, ha, ?_⟩
    · rw [← hsplit]
      exact List.mem_append.mpr (Or.inl hm)
    · unfold wordsToStr
      rw [if_neg hnlt, herr]
  · push_neg at h1
    obtain ⟨idxs, hok⟩ := wordsToIndices_ok_of_all wl _
      (fun w hw => h1 w hw)
    obtain ⟨w0, hm0, ha0⟩ := habs
    have hm0' : w0 ∈ ws.drop (ws.length - CHECKSUM_LENGTH_WORDS) := by
      rw [← hsplit] at hm0
      rcases List.mem_append.mp hm0 with hmm | hmm
      · exact absurd (h1 w0 hmm) ha0
      · exact hmm
    obtain ⟨w, hm, ha, herr⟩ := wordsToIndices_first_absent wl _ ⟨w0, hm0', ha0⟩
    refine ⟨w, ?_, ha, ?_⟩
    · rw [← hsplit]
      exact List.mem_append.mpr (Or.inr hm)
    · unfold wordsToStr
      rw [if_neg hnlt, hok, herr]

theorem wordsToStr_invalid_inv (wl : List String) (ws : List String) (w : String)
    (h : wordsToStr wl ws = .error (.invalidWord w)) :
    w ∈ ws ∧ w ∉ wl := by
  unfold wordsToStr at h
  by_cases hlen : ws.length < CHECKSUM_LENGTH_WORDS + 1
  · rw [if_pos hlen] at h
    simp at h
  · rw [if_neg hlen] at h
    have hsplit : ws.take (ws.length - CHECKSUM_LENGTH_WORDS)
        ++ ws.drop (ws.length - CHECKSUM_LENGTH_WORDS) = ws :=
      List.take_append_drop _ ws
    cases h1 : wordsToIndices wl (ws.take (ws.length - CHECKSUM_LENGTH_WORDS)) with
    | error e1 =>
      rw [h1] at h
      obtain ⟨w1, he, hm, ha⟩ := wordsToIndices_error_inv wl _ e1 h1
      have h' : (Except.error e1 : Except DecodeError (List Nat))
          = .error (.invalidWord w) := h
      injection h' with h2
      rw [he] at h2
      injection h2 with h3
      subst h3
      exact ⟨by rw [← hsplit]; exact List.mem_append.mpr (Or.inl hm), ha⟩
    | ok dataArr =>
      rw [h1] at h
      cases h2 : wordsToIndices wl (ws.drop (ws.length - CHECKSUM_LENGTH_WORDS)) with
      | error e2 =>
        rw [h2] at h
        obtain ⟨w2, he, hm, ha⟩ := wordsToIndices_error_inv wl _ e2 h2
        have h' : (Except.error e2 : Except DecodeError (List Nat))
            = .error (.invalidWord w) := h
        injection h' with h3
        rw [he] at h3
        injection h3 with h4
        subst h4
        exact ⟨by rw [← hsplit]; exact List.mem_append.mpr (Or.inr hm), ha⟩
      | ok csumArr =>
        rw [h2] at h
        by_cases hv : verify_checksum (dataArr ++ csumArr) [] = true
        · simp [hv] at h
        · simp [hv] at h

theorem wordsToStr_checksum_inv (wl : List String) (ws : List String)
    (h : wordsToStr wl ws = .error .checksumError) :
    (∀ w ∈ ws, w ∈ wl)
      ∧ ∃ idxs, wordsToIndices wl ws = .ok idxs ∧ verify_checksum idxs [] = false := by
  unfold wordsToStr at h
  by_cases hlen : ws.length < CHECKSUM_LENGTH_WORDS + 1
  · rw [if_pos hlen] at h
    simp at h
  · rw [if_neg hlen] at h
    cases h1 : wordsToIndices wl (ws.take (ws.length - CHECKSUM_LENGTH_WORDS)) with
    | error e1 =>
      rw [h1] at h
      obtain ⟨w, he, -, -⟩ := wordsToIndices_error_inv wl _ e1 h1
      have h' : (Except.error e1 : Except DecodeError (List Nat))
          = .error .checksumError := h
      injection h' with h2
      rw [he] at h2
      cases h2
    | ok dataArr =>
      rw [h1] at h
      cases h2 : wordsToIndices wl (ws.drop (ws.length - CHECKSUM_LENGTH_WORDS)) with
      | error e2 =>
        rw [h2] at h
        obtain ⟨w, he, -, -⟩ := wordsToIndices_error_inv wl _ e2 h2
        have h' : (Except.error e2 : Except DecodeError (List Nat))
            = .error .checksumError := h
        injection h' with h3
        rw [he] at h3
        cases h3
      | ok csumArr =>
        rw [h2] at h
        by_cases hv : verify_checksum (dataArr ++ csumArr) [] = true
        · simp [hv] at h
        · have hfull : wordsToIndices wl ws = .ok (dataArr ++ csumArr) := by
            have happ := wordsToIndices_append wl
              (ws.take (ws.length - CHECKSUM_LENGTH_WORDS))
              (ws.drop (ws.length - CHECKSUM_LENGTH_WORDS))
            rw [List.take_append_drop] at happ
            rw [happ, h1, h2]
            rfl
          refine ⟨?_, dataArr ++ csumArr, hfull, by simpa using hv⟩
          intro w hw
          exact wordsToIndices_ok_mem wl ws (dataArr ++ csumArr) hfull w hw

/-! ## Text cleanup and heuristic word correction

Embeddings of `cleanupMnemonic` and `heuristicWord` from the extended
revision of `encoding.js` (the one that also defines `heuristicMnemonic`).
JavaScript strings are embedded as Lean `String`s; `substring` /
`startsWith` act on characters (all relevant tokens are ASCII). -/

/-- JavaScript `w.startsWith(p)` : `p` is a character-level prefix of `w`. -/
def strStartsWith (w p : String) : Bool :=
  p.toList.isPrefixOf w.toList

/-- `heuristicWord` from `encoding.js`: keep a wordlist entry unchanged;
otherwise take the first entry matching the token's first four characters
(`word.substring(0, 4)`, the whole token when shorter), falling back to the
first three characters, falling back to the token itself. -/
def heuristicWord (wl : List String) (word : String) : String :=
  if word ∈ wl then word
  else
    match wl.filter (fun w => strStartsWith w (word.take 4)) with
    | m :: _ => m
    | [] =>
      match wl.filter (fun w => strStartsWith w (word.take 3)) with
      | m :: _ => m
      | [] => word

/-- Claim C7's reading of `heuristicWord`, phrased with `List.find?` ("the
first entry in wordlist order whose text starts with the given characters"). -/
def heuristicWordSpec (wl : List String) (word : String) : String :=
  if word ∈ wl then word
  else
    match wl.find? (fun w => strStartsWith w (word.take 4)) with
    | some m => m
    | none =>
      match wl.find? (fun w => strStartsWith w (word.take 3)) with
      | some m => m
      | none => word

theorem wc_length_dropWhile_le (p : Char → Bool) :
    ∀ l : List Char, (l.dropWhile p).length ≤ l.length
  | [] => le_refl _
  | c :: rest => by
    by_cases h : p c
    · rw [List.dropWhile_cons_of_pos h]
      exact le_trans (wc_length_dropWhile_le p rest) (Nat.le_succ _)
    · rw [List.dropWhile_cons_of_neg h]

/-- The `replace(/\s+/g, ' ')` step: every maximal whitespace run becomes a
single space. -/
def collapseWs : List Char → List Char
  | [] => []
  | c :: rest =>
    if c.isWhitespace then ' ' :: collapseWs (rest.dropWhile Char.isWhitespace)
    else c :: collapseWs rest
termination_by l => l.length
decreasing_by
  · simp only [List.length_cons]
    exact Nat.lt_succ_of_le (wc_length_dropWhile_le Char.isWhitespace rest)
  · simp

/-- The normalization chain of `cleanupMnemonic`: trim, newlines to spaces,
collapse whitespace runs, lowercase, strip `-`, `.`, `,`. -/
def normalizeStr (s : String) : String :=
  String.mk
    (((collapseWs ((s.trim.toList).map (fun c => if c = '\n' then ' ' else c))).map
        Char.toLower).filter (fun c => !(c == '-' || c == '.' || c == ',')))

/-- The token-substitution loop of `cleanupMnemonic` (extended revision):
`and` followed by `X` collapses to `enX` when `enX` is a wordlist entry
(consuming both tokens), a standalone `fit` becomes `spit`, a standalone
`implies` becomes `imply`, and every other token passes through. -/
def applySubs (wl : List String) : List String → List String
  | [] => []
  | w :: rest =>
    if w = "and" then
      match rest with
      | next :: rest2 =>
        if ("en" ++ next) ∈ wl then ("en" ++ next) :: applySubs wl rest2
        else w :: applySubs wl (next :: rest2)
      | [] => [w]
    else if w = "fit" then "spit" :: applySubs wl rest
    else if w = "implies" then "imply" :: applySubs wl rest
    else w :: applySubs wl rest
termination_by l => l.length
decreasing_by
  · simp [List.length_cons]
    omega
  · simp
  · simp
  · simp
  · simp

/-- `cleanupMnemonic` from the extended revision of `encoding.js`:
normalize, split on single spaces, apply the token substitutions, rejoin. -/
def cleanupMnemonic (wl : List String) (mnemonic : String) : String :=
  String.intercalate " " (applySubs wl ((normalizeStr mnemonic).splitOn " "))

/-! ## Lemmas about the substitutions and the heuristic -/

theorem applySubs_and (wl : List String) (x : String) (rest : List String)
    (hx : ("en" ++ x) ∈ wl) :
    applySubs wl ("and" :: x :: rest) = ("en" ++ x) :: applySubs wl rest := by
  rw [applySubs]
  rw [if_pos rfl]
  show (if ("en" ++ x) ∈ wl then ("en" ++ x) :: applySubs wl rest
    else "and" :: applySubs wl (x :: rest)) = _
  rw [if_pos hx]

theorem applySubs_fit (wl : List String) (rest : List String) :
    applySubs wl ("fit" :: rest) = "spit" :: applySubs wl rest := by
  rw [applySubs.eq_def]
  simp

theorem applySubs_implies (wl : List String) (rest : List String) :
    applySubs wl ("implies" :: rest) = "imply" :: applySubs wl rest := by
  rw [applySubs.eq_def]
  simp

theorem heuristicWord_eq_spec (wl : List String) (w : String) :
    heuristicWord wl w = heuristicWordSpec wl w := by
  unfold heuristicWord heuristicWordSpec
  by_cases h : w ∈ wl
  · rw [if_pos h, if_pos h]
  · rw [if_neg h, if_neg h]
    have h4 := List.filter_head? (fun x => strStartsWith x (w.take 4)) wl
    have h3 := List.filter_head? (fun x => strStartsWith x (w.take 3)) wl
    cases hf : wl.filter (fun x => strStartsWith x (w.take 4)) with
    | nil =>
      rw [hf] at h4
      rw [← h4]
      cases hf3 : wl.filter (fun x => strStartsWith x (w.take 3)) with
      | nil =>
        rw [hf3] at h3
        rw [← h3]
        rfl
      | cons m t =>
        rw [hf3] at h3
        rw [← h3]
        rfl
    | cons m t =>
      rw [hf] at h4
      rw [← h4]
      rfl

theorem wc_strStartsWith_empty (x : String) : strStartsWith x "" = true := by
  unfold strStartsWith
  cases x.toList <;> rfl

/-- Core fact behind claim C10: on a nonempty wordlist without an empty
entry, `heuristicWord` maps the empty token to the first wordlist entry. -/
theorem heuristicWord_empty (wl : List String) (hne : wl ≠ []) (hno : "" ∉ wl) :
    heuristicWord wl "" = wl.headD "" ∧ heuristicWord wl "" ≠ "" := by
  unfold heuristicWord
  rw [if_neg hno]
  rw [show String.take "" 4 = "" from rfl]
  have hfilter : wl.filter (fun x => strStartsWith x "") = wl :=
    List.filter_eq_self.mpr (fun a _ => wc_strStartsWith_empty a)
  rw [hfilter]
  cases wl with
  | nil => exact absurd rfl hne
  | cons x rest =>
    refine ⟨rfl, ?_⟩
    intro h
    apply hno
    rw [← h]
    exact List.mem_cons_self x rest

/-! ## Concrete witness wordlist -/

/-- A concrete 1024-entry duplicate-free wordlist (entry `n` is the string
of `n + 1` letters `a`), used to instantiate the wordlist-parametric
theorems on concrete inputs. -/
def cw : List String :=
  (List.range 1024).map (fun n => String.mk (List.replicate (n + 1) 'a'))

theorem cw_length : cw.length = 1024 := by
  simp [cw]

theorem cw_nodup : cw.Nodup := by
  refine List.Nodup.map ?_ (List.nodup_range 1024)
  intro a b h
  have h2 : List.replicate (a + 1) 'a' = List.replicate (b + 1) 'a' :=
    congrArg String.data h
  have h3 := congrArg List.length h2
  simp only [List.length_replicate] at h3
  omega

/-! ## Claim theorems -/

/-- C1: for every 1024-entry duplicate-free wordlist and every byte sequence
(UTF-8 encoding of the input string) that does not begin with a 0x00 byte
(including the empty one), `wordsToStr (strToWords bytes)` succeeds and
returns exactly the original bytes — hence the decoded string is the
original string. -/
theorem C1_round_trip (wl : List String) (hlen : wl.length = 1024) (hnd : wl.Nodup)
    (bs : List Nat) (hb : ∀ b ∈ bs, b < 256) (hz : bs.head? ≠ some 0) :
    wordsToStr wl (strToWords wl bs) = .ok bs :=
  wordsToStr_strToWords wl hlen hnd bs hb hz

theorem C1_round_trip_witness :
    wordsToStr cw (strToWords cw [104, 105]) = .ok [104, 105] :=
  C1_round_trip cw cw_length cw_nodup [104, 105] (by decide) (by decide)

/-- C2: for every data digit sequence (elements in [0,1023]) and every
customization digit sequence, appending the created checksum makes
verification succeed: `verify_checksum (data ++ create_checksum data custom)
custom = true`. -/
theorem C2_create_verify (data custom : List Nat)
    (hdata : ∀ d ∈ data, d < 1024) (hcustom : ∀ d ∈ custom, d < 1024) :
    verify_checksum (data ++ create_checksum data custom) custom = true :=
  verify_create data custom

theorem C2_create_verify_witness :
    verify_checksum ([5, 17] ++ create_checksum [5, 17] [7]) [7] = true :=
  C2_create_verify [5, 17] [7] (by decide) (by decide)

/-- C3: replacing exactly one element of a digit sequence that verifies
(with empty customization) by any different value in [0,1023] always makes
`verify_checksum` return false — every single-symbol substitution in a
valid full sequence is detected, without exception. -/
theorem C3_substitution_detected (S : List Nat) (hS : ∀ d ∈ S, d < 1024)
    (hv : verify_checksum S [] = true) (j : Nat) (hj : j < S.length)
    (v : Nat) (hv1024 : v < 1024) (hne : v ≠ S.get ⟨j, hj⟩) :
    verify_checksum (S.set j v) [] = false :=
  verify_set_false S hS hv j hj v hv1024 hne

theorem C3_substitution_detected_witness :
    verify_checksum (([0] ++ create_checksum [0] []).set 0 5) [] = false :=
  C3_substitution_detected ([0] ++ create_checksum [0] []) (by decide) (by decide)
    0 (by decide) 5 (by decide) (by decide)

/-- C4: `wordsToStr` returns the insufficient-words error exactly when the
word list has fewer than `CHECKSUM_LENGTH_WORDS + 1 = 4` elements; the
equivalence holds for every wordlist whatsoever, so the error precedes any
dictionary lookup or checksum verification. -/
theorem C4_insufficient_iff :
    CHECKSUM_LENGTH_WORDS + 1 = 4
      ∧ ∀ (wl ws : List String),
        (wordsToStr wl ws = .error .insufficientWords
          ↔ ws.length < CHECKSUM_LENGTH_WORDS + 1) := by
  refine ⟨rfl, fun wl ws => ⟨wordsToStr_insufficient_inv wl ws, fun h => ?_⟩⟩
  unfold wordsToStr
  rw [if_pos h]

theorem C4_insufficient_iff_witness :
    wordsToStr ["a"] ["x", "y"] = .error .insufficientWords :=
  (C4_insufficient_iff.2 ["a"] ["x", "y"]).mpr (by decide)

/-- C5: for word lists of length at least 4: if some word is absent from the
wordlist, `wordsToStr` fails with an invalid-word error carrying an absent
word of the list; every invalid-word error carries a word of the list that
is absent from the wordlist; and a checksum error occurs only when every
word resolved to a wordlist index and `verify_checksum` over the
concatenated data+checksum indices returned false. -/
theorem C5_resolution_errors (wl ws : List String) (hlen : 4 ≤ ws.length) :
    ((∃ w, w ∈ ws ∧ w ∉ wl) →
        ∃ w, w ∈ ws ∧ w ∉ wl ∧ wordsToStr wl ws = .error (.invalidWord w))
      ∧ (∀ w, wordsToStr wl ws = .error (.invalidWord w) → w ∈ ws ∧ w ∉ wl)
      ∧ (wordsToStr wl ws = .error .checksumError →
          (∀ w ∈ ws, w ∈ wl)
            ∧ ∃ idxs, wordsToIndices wl ws = .ok idxs
                ∧ verify_checksum idxs [] = false) :=
  ⟨wordsToStr_invalid wl ws hlen, fun w h => wordsToStr_invalid_inv wl ws w h,
    fun h => wordsToStr_checksum_inv wl ws h⟩

theorem C5_resolution_errors_witness :
    ∃ w, w ∈ ["x", "x", "x", "x"] ∧ w ∉ ["a"]
      ∧ wordsToStr ["a"] ["x", "x", "x", "x"] = .error (.invalidWord w) :=
  (C5_resolution_errors ["a"] ["x", "x", "x", "x"] (by decide)).1
    ⟨"x", by decide, by decide⟩

/-- C6: decoding the encoding of a byte sequence yields the sequence with
all leading 0x00 bytes removed; in particular round trips on data with
leading zero bytes do not reproduce the original length. -/
theorem C6_leading_zeros_dropped (bs : List Nat) (hb : ∀ x ∈ bs, x < 256) :
    base1024ToBytes (bytesToBase1024 bs) = bs.dropWhile (· == 0) :=
  round_trip_bytes bs hb

theorem C6_leading_zeros_dropped_witness :
    base1024ToBytes (bytesToBase1024 [0, 1]) = [1]
      ∧ base1024ToBytes (bytesToBase1024 [0, 1]) ≠ [0, 1] := by
  have h := C6_leading_zeros_dropped [0, 1] (by decide)
  refine ⟨h.trans (by decide), ?_⟩
  rw [h]
  decide

/-- C7: `heuristicWord` returns a wordlist entry unchanged; otherwise the
first wordlist entry (in wordlist order) whose text starts with the first 4
characters of the token, else the first entry starting with the first 3
characters, else the token unchanged — exactly the `List.find?`-phrased
description `heuristicWordSpec`, so the earliest-in-wordlist tie-break is
exact. -/
theorem C7_heuristic_first_match (wl : List String) (w : String) :
    heuristicWord wl w = heuristicWordSpec wl w :=
  heuristicWord_eq_spec wl w

theorem C7_heuristic_first_match_witness :
    heuristicWord ["abc"] "abd" = heuristicWordSpec ["abc"] "abd" :=
  C7_heuristic_first_match ["abc"] "abd"

/-- C8: `cleanupMnemonic` is normalization followed by the literal token
substitutions, and the substitution pass rewrites an adjacent pair
`and`,`X` to the single token `enX` whenever `enX` is a wordlist entry, a
standalone `fit` to `spit`, and a standalone `implies` to `imply`. -/
theorem C8_cleanup_substitutions (wl : List String) (m x : String)
    (rest : List String) (hx : ("en" ++ x) ∈ wl) :
    cleanupMnemonic wl m
        = String.intercalate " " (applySubs wl ((normalizeStr m).splitOn " "))
      ∧ applySubs wl ("and" :: x :: rest) = ("en" ++ x) :: applySubs wl rest
      ∧ applySubs wl ("fit" :: rest) = "spit" :: applySubs wl rest
      ∧ applySubs wl ("implies" :: rest) = "imply" :: applySubs wl rest :=
  ⟨rfl, applySubs_and wl x rest hx, applySubs_fit wl rest, applySubs_implies wl rest⟩

theorem C8_cleanup_substitutions_witness :
    cleanupMnemonic ["enjoy"] "a"
        = String.intercalate " " (applySubs ["enjoy"] ((normalizeStr "a").splitOn " "))
      ∧ applySubs ["enjoy"] ("and" :: "joy" :: []) = ("en" ++ "joy") :: applySubs ["enjoy"] []
      ∧ applySubs ["enjoy"] ("fit" :: []) = "spit" :: applySubs ["enjoy"] []
      ∧ applySubs ["enjoy"] ("implies" :: []) = "imply" :: applySubs ["enjoy"] [] :=
  C8_cleanup_substitutions ["enjoy"] "a" "joy" [] (by decide)

/-- C9: every digit produced on the encode path is in [0,1023]: each element
of `bytesToBase1024`'s output and of `create_checksum`'s output is below
1024, so for a 1024-entry wordlist `strToWords` only produces words of the
wordlist (it never indexes out of bounds). -/
theorem C9_digits_in_range :
    (∀ bs : List Nat, ∀ d ∈ bytesToBase1024 bs, d < 1024)
      ∧ (∀ data custom : List Nat, ∀ d ∈ create_checksum data custom, d < 1024)
      ∧ (∀ (wl : List String) (bs : List Nat), wl.length = 1024 →
          ∀ w ∈ strToWords wl bs, w ∈ wl) := by
  refine ⟨bytesToBase1024_mem_lt, create_checksum_mem_lt, ?_⟩
  intro wl bs hlen w hw
  unfold strToWords at hw
  obtain ⟨i, hi, hmap⟩ := List.mem_map.mp hw
  subst hmap
  have hilt : i < wl.length := by
    rw [hlen]
    rcases List.mem_append.mp hi with h | h
    · exact bytesToBase1024_mem_lt bs i h
    · exact create_checksum_mem_lt _ [] i h
  exact wc_getD_mem wl i hilt

theorem C9_digits_in_range_witness :
    0 ∈ bytesToBase1024 [] ∧ 0 < 1024 := by
  have hmem : 0 ∈ bytesToBase1024 [] := by
    simp [bytesToBase1024, bytesToNat, natToBase1024Rev]
  exact ⟨hmem, C9_digits_in_range.1 [] 0 hmem⟩

/-- C10: on a nonempty wordlist that does not contain the empty string,
`heuristicWord` applied to the empty token does not return it unchanged: it
returns the first entry of the wordlist (the empty token's 4-character
head is empty and every entry starts with the empty string). -/
theorem C10_empty_token_corrected (wl : List String) (hne : wl ≠ [])
    (hno : "" ∉ wl) :
    heuristicWord wl "" = wl.headD "" ∧ heuristicWord wl "" ≠ "" :=
  heuristicWord_empty wl hne hno

theorem C10_empty_token_corrected_witness :
    heuristicWord ["abc", "def"] "" = (["abc", "def"] : List String).headD ""
      ∧ heuristicWord ["abc", "def"] "" ≠ "" :=
  C10_empty_token_corrected ["abc", "def"] (by decide) (by decide)

end Worcoder
